import Mathlib

/-!
# Verification of `fix_compile_commands.py`

A shallow embedding of the path-fixing script `fix_compile_commands.py`:
the similarity scorer (`_simple_string_similarity` and the scoring loop of
`_get_best_match`), the candidate selector (`_get_best_match`), the search
command construction (`_run_fd_search`), the cached resolver
(`find_real_path`) and the entry rewriter (`process_entry` / the main loop).

Modelling conventions:
* Paths are `String`s with the POSIX separator `"/"` (the script uses
  `os.sep` together with literal `"/"` sentinels, so it is a POSIX tool).
* The external `fd` process is an oracle `Exec : List String → Option (List
  String)`: `none` models a `CalledProcessError` / `FileNotFoundError`,
  `some lines` models a successful run whose stdout has the given lines.
* Python float arithmetic on scores is modelled exactly: scores are
  fractions `Q` with integer numerator and positive denominator.  All
  numerators and denominators stay small, where double rounding is exact or
  irrelevant to the orderings used.
* The global `PATH_CACHE` dict is an association list threaded through the
  functions; lookup finds the most recent binding, as the dict does.
* `os.getcwd()` is an explicit `cwd` argument feeding `os.path.abspath`.
* All string functions are implemented structurally over `List Char`, with
  the semantics of the Python `str` / `posixpath` operations they model.
-/

/-! ## Exact fractions standing for Python floats -/

/-- An exact fraction.  Every value built by the embedding has a positive
denominator; arithmetic and comparisons assume that. -/
structure Q where
  num : Int
  den : Int
deriving DecidableEq, Repr

/-- The fraction `n / 1`. -/
def Q.ofInt (n : Int) : Q := ⟨n, 1⟩

/-- Exact sum of two fractions. -/
def Q.add (a b : Q) : Q := ⟨a.num * b.den + b.num * a.den, a.den * b.den⟩

/-- Strict comparison, valid for positive denominators. -/
def Q.blt (a b : Q) : Bool := a.num * b.den < b.num * a.den

/-- The rational number a fraction denotes. -/
def Q.toRat (a : Q) : ℚ := (a.num : ℚ) / (a.den : ℚ)

/-- Positivity of the denominator: the invariant of all fractions the
embedding constructs. -/
def Q.Pos (a : Q) : Prop := 0 < a.den

/-! ## String utilities (Python `str` semantics, structural recursion) -/

/-- `prefixAt pat l` : does `l` start with `pat`?  (Python `startswith` on
char lists.) -/
def prefixAt : List Char → List Char → Bool
  | [], _ => true
  | _ :: _, [] => false
  | a :: as, b :: bs => if a = b then prefixAt as bs else false

/-- `infixAt pat l` : does `pat` occur contiguously in `l`?  (Python `in`.) -/
def infixAt : List Char → List Char → Bool
  | pat, [] => pat = ([] : List Char)
  | pat, c :: rest => prefixAt pat (c :: rest) || infixAt pat rest

/-- Python `pat in s` (substring containment). -/
def strContains (s pat : String) : Bool := infixAt pat.data s.data

/-- Python `s.startswith(pat)`. -/
def strStartsWith (s pat : String) : Bool := prefixAt pat.data s.data

/-- Python `s.endswith(pat)`. -/
def strEndsWith (s pat : String) : Bool := prefixAt pat.data.reverse s.data.reverse

/-- Fuel-driven splitter: at each position, if the (non-empty) separator
matches, cut; otherwise advance one character.  The fuel starts at the
length of the list, which bounds the number of steps. -/
def splitAux (sep : List Char) : Nat → List Char → List Char → List (List Char)
  | 0, acc, _ => [acc.reverse]
  | _ + 1, acc, [] => [acc.reverse]
  | fuel + 1, acc, c :: rest =>
    if prefixAt sep (c :: rest) then
      acc.reverse :: splitAux sep fuel [] (List.drop (sep.length - 1) rest)
    else
      splitAux sep fuel (c :: acc) rest

/-- Python `s.split(sep)` for a non-empty separator. -/
def strSplitOn (s sep : String) : List String :=
  (splitAux sep.data s.data.length [] s.data).map String.mk

/-- Python `s.split(os.sep)` with `os.sep = "/"`. -/
def strSplit (s : String) : List String := strSplitOn s "/"

/-- Python `sep.join(parts)`. -/
def joinSep (sep : String) : List String → String
  | [] => ""
  | [x] => x
  | x :: xs => x ++ sep ++ joinSep sep xs

/-- Python `s.split(sep, 1)[1]` under the assumption that `sep` occurs in
`s`: everything after the first occurrence of `sep`. -/
def afterFirst (s sep : String) : String :=
  joinSep sep (strSplitOn s sep).tail

/-- Python `l[-n:]` on lists: the last `n` elements (all of them when the
list is shorter). -/
def lastN (n : Nat) (l : List String) : List String := l.drop (l.length - n)

/-- Python `s.rstrip(os.sep)`: drop trailing `'/'` characters. -/
def rstripSep (s : String) : String :=
  String.mk (s.data.reverse.dropWhile (fun c => c = '/')).reverse

/-! ## POSIX path functions (`posixpath` semantics) -/

/-- `os.path.isabs` on POSIX. -/
def isAbs (p : String) : Bool := strStartsWith p "/"

/-- `os.path.join(a, b)` on POSIX. -/
def join2 (a b : String) : String :=
  if isAbs b then b
  else if a = "" ∨ strEndsWith a "/" then a ++ b
  else a ++ "/" ++ b

/-- `os.path.join(a, *parts)` on POSIX. -/
def joinMany (a : String) (parts : List String) : String :=
  parts.foldl join2 a

/-- `os.path.basename` on POSIX: the part after the last slash. -/
def basename (p : String) : String := ((strSplit p).getLast?).getD ""

/-- `os.path.dirname` on POSIX: the part before the last slash, with
trailing slashes stripped unless it consists only of slashes. -/
def dirname (p : String) : String :=
  let cs := p.data
  let tailLen := (cs.reverse.takeWhile (fun c => c ≠ '/')).length
  let head := cs.take (cs.length - tailLen)
  if head = [] then ""
  else if head.all (fun c => c = '/') then String.mk head
  else String.mk (head.reverse.dropWhile (fun c => c = '/')).reverse

/-- `posixpath.normpath`: collapse `""` and `"."` components, resolve
`".."`, preserve the special initial double slash. -/
def normpath (path : String) : String :=
  if path = "" then "." else
  let initialSlashes : Nat :=
    if strStartsWith path "/" then
      if strStartsWith path "//" ∧ ¬ strStartsWith path "///" then 2 else 1
    else 0
  let comps := strSplit path
  let newComps := comps.foldl (fun acc comp =>
    if comp = "" ∨ comp = "." then acc
    else if comp ≠ ".." ∨ (initialSlashes = 0 ∧ acc = []) ∨ acc.getLast? = some ".." then
      acc ++ [comp]
    else acc.dropLast) []
  let out := String.mk (List.replicate initialSlashes '/') ++ joinSep "/" newComps
  if out = "" then "." else out

/-- `os.path.abspath` on POSIX with an explicit working directory. -/
def abspath (cwd p : String) : String :=
  normpath (if isAbs p then p else join2 cwd p)

/-- Length of the common prefix of two component lists
(`genericpath.commonprefix` on lists). -/
def commonPrefixLen : List String → List String → Nat
  | a :: as, b :: bs => if a = b then 1 + commonPrefixLen as bs else 0
  | _, _ => 0

/-- `posixpath.relpath(path, start)` with an explicit working directory.
`none` models the `ValueError` raised when `path` is the empty string; on
POSIX that is the only failure. -/
def relpath (cwd path start : String) : Option String :=
  if path = "" then none else
  let startList := ((strSplit (abspath cwd start)).filter (fun x => x ≠ ""))
  let pathList := ((strSplit (abspath cwd path)).filter (fun x => x ≠ ""))
  let i := commonPrefixLen startList pathList
  let relList := List.replicate (startList.length - i) ".." ++ pathList.drop i
  if relList = [] then some "." else some (joinSep "/" relList)

/-- `re.escape`: prepend a backslash to every regex metacharacter
(the character set used by Python 3.7+). -/
def reEscape (s : String) : String :=
  String.mk (s.data.foldr (fun c acc =>
    if c ∈ ['(', ')', '[', ']', '\x7b', '\x7d', '?', '*', '+', '-', '|',
             '^', '$', '\\', '.', '&', '~', '#', ' ', '\t', '\n', '\r',
             '\x0b', '\x0c'] then '\\' :: c :: acc else c :: acc) [])

/-! ## Embedding of `fix_compile_commands.py` -/

/-- A command line for the external search process. -/
abbrev Cmd := List String

/-- The external search process (`fd` run through `subprocess.run`):
`none` models `CalledProcessError` or `FileNotFoundError`, `some lines`
models a successful run whose stripped stdout splits into `lines`. -/
abbrev Exec := Cmd → Option (List String)

/-- `EXCLUDED_DIRS`: directories excluded from file searches. -/
def EXCLUDED_DIRS : List String := [".cache", "output"]

/-- `MIN_SCORE_THRESHOLD = 1.5`. -/
def MIN_SCORE_THRESHOLD : Q := ⟨3, 2⟩

/-- `PATH_CACHE`: the results of path lookups.  A dict from paths to
`Optional[str]`, modelled as an association list where the most recent
binding wins. -/
abbrev Cache := List (String × Option String)

/-- Python `set(s)`: the set of characters of a string. -/
def charSet (s : String) : Finset Char := s.data.toFinset

/-- `_simple_string_similarity`: Jaccard similarity of the character sets,
`intersection / union if union > 0 else 0.0`. -/
def simple_string_similarity (a b : String) : Q :=
  let inter := ((charSet a) ∩ (charSet b)).card
  let uni := ((charSet a) ∪ (charSet b)).card
  if 0 < uni then ⟨(inter : Int), (uni : Int)⟩ else ⟨0, 1⟩

/-- `_get_best_match` lines 51–57: the suffix segments of the original
path — everything after the first `'output/build/'` when present,
otherwise the last 4 segments. -/
def origSuffixParts (originalPath : String) : List String :=
  if strContains originalPath "output/build/" then
    strSplit (afterFirst originalPath "output/build/")
  else
    lastN 4 (strSplit originalPath)

/-- The right-to-left scoring loop of `_get_best_match` (lines 65–78),
applied to the pairs `(original_suffix_parts[-i], match_parts[-i])` for
`i = 1 .. min(len, len)`: an exactly equal pair adds `1.0` and the scan
continues; the first differing pair adds the Jaccard similarity and the
scan stops. -/
def scoreLoop : List (String × String) → Q
  | [] => ⟨0, 1⟩
  | (a, b) :: rest =>
    if a = b then (Q.ofInt 1).add (scoreLoop rest)
    else simple_string_similarity a b

/-- The score of one candidate (`match_parts`) against the original suffix
segments: the loop over negative indices `-1, -2, ...` is the loop over
the zip of the reversed lists. -/
def candScore (origSuffixParts matchParts : List String) : Q :=
  scoreLoop (List.zip origSuffixParts.reverse matchParts.reverse)

/-- The body of the candidate loop of `_get_best_match` (lines 62–82):
score the candidate's segments against the original suffix segments and
replace the best exactly when the score is strictly greater. -/
def bestStep (suffix : List String) (acc : Q × Option String) (m : String) :
    Q × Option String :=
  let score := candScore suffix (strSplit m)
  if acc.1.blt score then (score, some m) else acc

/-- The best-candidate fold of `_get_best_match` (lines 59–82):
`best_score` starts at `-1.0` and `best_match_path` at `None`. -/
def bestFold (suffix : List String) (ms : List String) : Q × Option String :=
  ms.foldl (bestStep suffix) (⟨-1, 1⟩, none)

/-- `_get_best_match`: score the candidates, reject a best score below
`MIN_SCORE_THRESHOLD`, and return the absolute path of the best match
(`if best_match_path` is Python truthiness: `None` and `""` both fail). -/
def get_best_match (ms : List String) (originalPath : String) (cwd : String) :
    Option String :=
  if ms = [] then none else
  let suffix := origSuffixParts originalPath
  let best := bestFold suffix ms
  if best.1.blt MIN_SCORE_THRESHOLD then none
  else match best.2 with
    | some m => if m ≠ "" then some (abspath cwd m) else none
    | none => none

/-- The command line built by `_run_fd_search` (lines 95–105):
`fd -HI [--regex] term root… --exclude .cache --exclude output`. -/
def fdCmd (searchTerm : String) (isRegex : Bool) (sourceRoots : List String) : Cmd :=
  ["fd", "-HI"] ++ (if isRegex then ["--regex", searchTerm] else [searchTerm])
    ++ sourceRoots
    ++ EXCLUDED_DIRS.foldl (fun acc e => acc ++ ["--exclude", e]) []

/-- `_run_fd_search`: run the command; a failure of the external process
(`CalledProcessError`, `FileNotFoundError`) yields `[]`. -/
def run_fd_search (ex : Exec) (searchTerm : String) (sourceRoots : List String)
    (isRegex : Bool) : List String :=
  match ex (fdCmd searchTerm isRegex sourceRoots) with
  | some lines => lines
  | none => []

/-- Strategy 1 of `find_real_path` (lines 128–138), together with the
list of commands passed to the external process (the trace, recorded to
reason about how often the search provider is invoked): when the stripped
path has a real parent, search for `basename(parent)/basename(p)` and
keep the matches ending with that term. -/
def strategy1 (ex : Exec) (cwd : String) (path : String)
    (sourceRoots : List String) : Option String × List Cmd :=
  let p := rstripSep path
  let parent := dirname p
  if parent ≠ "" ∧ parent ≠ "/" then
    let searchTerm := join2 (basename parent) (basename p)
    let ms := run_fd_search ex searchTerm sourceRoots false
    let filtered := ms.filter (fun m => strEndsWith m searchTerm)
    (get_best_match filtered path cwd, [fdCmd searchTerm false sourceRoots])
  else (none, [])

/-- Strategy 2 of `find_real_path` (lines 140–148), with its trace: when
the basename is non-empty, search for the anchored, escaped basename as a
regex. -/
def strategy2 (ex : Exec) (cwd : String) (path : String)
    (sourceRoots : List String) : Option String × List Cmd :=
  let name := basename path
  if name ≠ "" then
    let regexTerm := "^" ++ reEscape name ++ "$"
    let ms := run_fd_search ex regexTerm sourceRoots true
    (get_best_match ms path cwd, [fdCmd regexTerm true sourceRoots])
  else (none, [])

/-- The search phase of `find_real_path`: strategy 1, then — only when it
produced no confident match — strategy 2; the trace collects the commands
of both. -/
def searchStrategies (ex : Exec) (cwd : String) (path : String)
    (sourceRoots : List String) : Option String × List Cmd :=
  let s1 := strategy1 ex cwd path sourceRoots
  match s1.1 with
  | some best => (some best, s1.2)
  | none =>
    let s2 := strategy2 ex cwd path sourceRoots
    (s2.1, s1.2 ++ s2.2)

/-- `find_real_path` (lines 115–151) with the command trace: consult the
cache; return a path without the `'output/'` sentinel unchanged; otherwise
run the two strategies and cache the outcome (including `None`). -/
def find_real_path_traced (ex : Exec) (cwd : String) (cache : Cache)
    (path : String) (sourceRoots : List String) :
    Option String × Cache × List Cmd :=
  match List.lookup path cache with
  | some cached => (cached, cache, [])
  | none =>
    if strContains path "output/" = false then
      (some path, (path, some path) :: cache, [])
    else
      let r := searchStrategies ex cwd path sourceRoots
      (r.1, (path, r.1) :: cache, r.2)

/-- `find_real_path` without the instrumentation. -/
def find_real_path (ex : Exec) (cwd : String) (cache : Cache)
    (path : String) (sourceRoots : List String) : Option String × Cache :=
  let r := find_real_path_traced ex cwd cache path sourceRoots
  (r.1, r.2.1)

/-- An `arguments` token: a string, or any non-string JSON token (kept
opaque — the rewriter only ever passes it through). -/
inductive Arg where
  | str : String → Arg
  | other : Nat → Arg
deriving DecidableEq, Repr

/-- One entry of the compilation database (the fields the rewriter reads
and writes). -/
structure Entry where
  directory : String
  file : String
  arguments : List Arg
deriving DecidableEq, Repr

/-- `process_entry` line 166: the absolute source file acting as anchor. -/
def anchorPath (e : Entry) : String :=
  if isAbs e.file then e.file else join2 e.directory e.file

/-- The source-file extensions of `process_entry` line 195. -/
def sourceExts : List String := [".c", ".cpp", ".h", ".S"]

/-- The argument rewriting loop of `process_entry` (lines 186–207),
threading the cache.  `newDir` is the entry's new directory (from either
the relative-depth computation or its fallback). -/
def processArgs (ex : Exec) (cwd : String) (sourceRoots : List String)
    (origDirectory newDir : String) :
    List Arg → Cache → List Arg × Cache
  | [], cache => ([], cache)
  | Arg.other n :: rest, cache =>
    let r := processArgs ex cwd sourceRoots origDirectory newDir rest cache
    (Arg.other n :: r.1, r.2)
  | Arg.str s :: rest, cache =>
    if strContains s "output/" then
      let f := find_real_path ex cwd cache s sourceRoots
      let r := processArgs ex cwd sourceRoots origDirectory newDir rest f.2
      (Arg.str (f.1.getD s) :: r.1, r.2)
    else if (sourceExts.any (fun e => strEndsWith s e)) ∧ ¬ isAbs s then
      let absPath := join2 origDirectory s
      let f := find_real_path ex cwd cache absPath sourceRoots
      match f.1 with
      | some found =>
        let newArg :=
          if newDir ≠ "" ∧ strStartsWith found (newDir ++ "/") then
            -- posixpath.relpath raises only on an empty path; found is a
            -- non-empty absolute path here, so the none case is unreachable.
            (relpath cwd found newDir).getD found
          else found
        let r := processArgs ex cwd sourceRoots origDirectory newDir rest f.2
        (Arg.str newArg :: r.1, r.2)
      | none =>
        let r := processArgs ex cwd sourceRoots origDirectory newDir rest f.2
        (Arg.str s :: r.1, r.2)
    else
      let r := processArgs ex cwd sourceRoots origDirectory newDir rest cache
      (Arg.str s :: r.1, r.2)

/-- `process_entry` (lines 155–209): resolve the anchor file; on failure
return the entry unmodified; on success recompute `directory` by ascending
`len(rel_path_parts)` levels from the resolved file (falling back to the
resolved file's parent and basename when `relpath` fails), then rewrite
the argument tokens. -/
def process_entry (ex : Exec) (cwd : String) (sourceRoots : List String)
    (cache : Cache) (e : Entry) : Entry × Cache :=
  if e.directory = "" ∨ e.file = "" then (e, cache) else
  let origAbs := anchorPath e
  let f := find_real_path ex cwd cache origAbs sourceRoots
  match f.1 with
  | none => (e, f.2)
  | some found =>
    let dirFile : String × String :=
      match relpath cwd origAbs e.directory with
      | none => (dirname found, basename found)
      | some rel =>
        let relParts := strSplit rel
        let newDirectory := abspath cwd (joinMany found (List.replicate relParts.length ".."))
        match relpath cwd found newDirectory with
        | some newFile => (newDirectory, newFile)
        | none => (dirname found, basename found)
    let args := processArgs ex cwd sourceRoots e.directory dirFile.1 e.arguments f.2
    (⟨dirFile.1, dirFile.2, args.1⟩, args.2)

/-- One iteration of the main loop (lines 233–237): process the entry with
the shared cache and append the result to the output. -/
def runStep (ex : Exec) (cwd : String) (sourceRoots : List String)
    (acc : List Entry × Cache) (e : Entry) : List Entry × Cache :=
  let r := process_entry ex cwd sourceRoots acc.2 e
  (acc.1 ++ [r.1], r.2)

/-- The main loop (lines 231–237): process the entries in order, sharing
`PATH_CACHE`, which starts empty for the run; every processed entry is
appended to the output. -/
def rewriteRun (ex : Exec) (cwd : String) (sourceRoots : List String)
    (entries : List Entry) : List Entry :=
  (entries.foldl (runStep ex cwd sourceRoots) ([], [])).1

/-! ## Claim-side definitions (the spec's wording, for comparison) -/

/-- Number of leading pairs of equal segments (the exactly-equal pairs the
scan of claim C1 walks over before the first difference). -/
def leadEqCount : List (String × String) → Nat
  | [] => 0
  | (a, b) :: rest => if a = b then 1 + leadEqCount rest else 0

/-- The first differing pair of the scan, if any. -/
def firstDiff : List (String × String) → Option (String × String)
  | [] => none
  | (a, b) :: rest => if a = b then firstDiff rest else some (a, b)

/-- Jaccard similarity as the claim words it: the size of the intersection
of the two segments' character sets divided by the size of their union,
`0` when the union is empty. -/
def jaccardRat (a b : String) : ℚ :=
  if charSet a ∪ charSet b = ∅ then 0
  else ((charSet a ∩ charSet b).card : ℚ) / ((charSet a ∪ charSet b).card : ℚ)

/-- The score as claim C1 describes it: segments compared from the
rightmost end moving leftward, `1.0` for every exactly equal pair, plus the
Jaccard similarity of the first differing pair (nothing more after it). -/
def specScoreClaim (suffix cand : List String) : ℚ :=
  let pairs := List.zip suffix.reverse cand.reverse
  (leadEqCount pairs : ℚ) +
    (match firstDiff pairs with
     | none => 0
     | some ab => jaccardRat ab.1 ab.2)

/-- Number of trailing segments of a candidate matched exactly against the
original suffix segments (claim C8's comparison key). -/
def exactTrailing (suffix cand : List String) : Nat :=
  leadEqCount (List.zip suffix.reverse cand.reverse)

/-- The Path Resolver as claim C3 describes it: each source root searched
independently and in the given order; the first root whose search yields a
confident match wins. -/
def find_real_path_per_root (ex : Exec) (cwd path : String)
    (roots : List String) : Option String :=
  if strContains path "output/" = false then some path
  else roots.findSome? (fun root => (searchStrategies ex cwd path [root]).1)

/-! ## Concrete scenarios used by witnesses and counterexamples -/

/-- A search oracle for the C3 scenario: the merged invocation sees the
candidates of both roots; each single-root invocation sees its own. -/
def exC3 : Exec := fun cmd =>
  if cmd = fdCmd "a/f.c" false ["/r1", "/r2"] then some ["/r1/q/a/f.c", "/r2/s/a/f.c"]
  else if cmd = fdCmd "a/f.c" false ["/r1"] then some ["/r1/q/a/f.c"]
  else if cmd = fdCmd "a/f.c" false ["/r2"] then some ["/r2/s/a/f.c"]
  else some []

/-- The stale path of the C3 scenario. -/
def pathC3 : String := "/proj/output/build/s/a/f.c"

/-- A search oracle for the C5 scenario: the anchor's suffix search finds
the real file; every other search finds nothing. -/
def exC5 : Exec := fun cmd =>
  if cmd = fdCmd "a/f.c" false ["/src"] then some ["/src/pk/a/f.c"] else some []

/-- The entry of the C5 scenario: a stale directory, a resolvable anchor
file, and a relative argument token that names a file the search cannot
find (so the first run keeps it verbatim). -/
def eC5 : Entry := ⟨"/proj/output/build", "a/f.c", [Arg.str "a/./g.c"]⟩

/-- A search oracle for the C7 witness: the anchor's suffix search finds
the real file. -/
def exC7 : Exec := fun cmd =>
  if cmd = fdCmd "a/f.c" false ["/src"] then some ["/src/pk/a/f.c"] else some []

/-- The entry of the C7 witness. -/
def eC7 : Entry := ⟨"/proj/output/build", "a/f.c", []⟩

/-- The entry of the C6 witness: its anchor cannot be resolved by either
strategy when every search returns no candidates. -/
def eC6 : Entry := ⟨"/proj", "output/f.c", [Arg.str "-O2"]⟩

/-! ## Lemmas about fractions -/

theorem Q.pos_mk_one (n : Int) : Q.Pos ⟨n, 1⟩ := Int.zero_lt_one

theorem Q.pos_add {a b : Q} (ha : a.Pos) (hb : b.Pos) : (a.add b).Pos :=
  mul_pos ha hb

theorem Q.den_cast_ne_zero {a : Q} (ha : a.Pos) : ((a.den : ℚ)) ≠ 0 := by
  exact_mod_cast ne_of_gt ha

theorem Q.toRat_add {a b : Q} (ha : a.Pos) (hb : b.Pos) :
    (a.add b).toRat = a.toRat + b.toRat := by
  have h1 := Q.den_cast_ne_zero ha
  have h2 := Q.den_cast_ne_zero hb
  unfold Q.toRat Q.add
  push_cast
  field_simp

theorem Q.toRat_mk_one (n : Int) : Q.toRat ⟨n, 1⟩ = (n : ℚ) := by
  unfold Q.toRat
  norm_num

theorem Q.pos_ofInt (n : Int) : (Q.ofInt n).Pos := Int.zero_lt_one

theorem Q.toRat_ofInt (n : Int) : (Q.ofInt n).toRat = (n : ℚ) :=
  Q.toRat_mk_one n

theorem Q.blt_iff {a b : Q} (ha : a.Pos) (hb : b.Pos) :
    a.blt b = true ↔ a.toRat < b.toRat := by
  unfold Q.blt Q.toRat
  rw [decide_eq_true_eq]
  rw [div_lt_div_iff (by exact_mod_cast ha) (by exact_mod_cast hb)]
  constructor
  · intro h
    exact_mod_cast h
  · intro h
    exact_mod_cast h

/-! ## Lemmas about the similarity scorer -/

theorem sim_pos (a b : String) : (simple_string_similarity a b).Pos := by
  by_cases h : 0 < (charSet a ∪ charSet b).card
  · simp only [simple_string_similarity, if_pos h]
    show (0 : Int) < ((charSet a ∪ charSet b).card : Int)
    exact_mod_cast h
  · simp only [simple_string_similarity, if_neg h]
    exact Q.pos_mk_one 0

theorem jaccardRat_nonneg (a b : String) : 0 ≤ jaccardRat a b := by
  unfold jaccardRat
  split
  · exact le_refl 0
  · positivity

theorem jaccardRat_le_one (a b : String) : jaccardRat a b ≤ 1 := by
  unfold jaccardRat
  split
  · norm_num
  · rw [div_le_one]
    · exact_mod_cast Finset.card_le_card (Finset.inter_subset_union)
    · have : (charSet a ∪ charSet b).Nonempty := by
        rwa [Finset.nonempty_iff_ne_empty]
      exact_mod_cast Finset.card_pos.mpr this

theorem sim_toRat (a b : String) :
    (simple_string_similarity a b).toRat = jaccardRat a b := by
  by_cases h : 0 < (charSet a ∪ charSet b).card
  · have hne : charSet a ∪ charSet b ≠ ∅ := by
      intro he
      rw [he] at h
      simp at h
    simp only [simple_string_similarity, if_pos h, jaccardRat, if_neg hne, Q.toRat]
    push_cast
    ring
  · have he : charSet a ∪ charSet b = ∅ := by
      rw [← Finset.card_eq_zero]
      omega
    simp only [simple_string_similarity, if_neg h, jaccardRat, if_pos he]
    rw [Q.toRat_mk_one]
    norm_num

theorem scoreLoop_pos (l : List (String × String)) : (scoreLoop l).Pos := by
  induction l with
  | nil => exact Q.pos_mk_one 0
  | cons ab rest ih =>
    obtain ⟨a, b⟩ := ab
    unfold scoreLoop
    split
    · exact Q.pos_add (Q.pos_mk_one 1) ih
    · exact sim_pos a b

/-- The scoring loop decomposes as claim C1 describes: one unit per
leading equal pair, plus the Jaccard similarity of the first differing
pair when there is one. -/
theorem scoreLoop_toRat (l : List (String × String)) :
    (scoreLoop l).toRat =
      (leadEqCount l : ℚ) +
        (match firstDiff l with
         | none => 0
         | some ab => jaccardRat ab.1 ab.2) := by
  induction l with
  | nil =>
    unfold scoreLoop leadEqCount firstDiff
    rw [Q.toRat_mk_one]
    norm_num
  | cons ab rest ih =>
    obtain ⟨a, b⟩ := ab
    by_cases hab : a = b
    · unfold scoreLoop leadEqCount firstDiff
      rw [if_pos hab, if_pos hab, if_pos hab]
      rw [Q.toRat_add (Q.pos_ofInt 1) (scoreLoop_pos rest), ih, Q.toRat_ofInt]
      push_cast
      ring
    · unfold scoreLoop leadEqCount firstDiff
      rw [if_neg hab, if_neg hab, if_neg hab]
      rw [sim_toRat]
      norm_num

theorem scoreLoop_nonneg (l : List (String × String)) : 0 ≤ (scoreLoop l).toRat := by
  rw [scoreLoop_toRat]
  have h : (0 : ℚ) ≤ (match firstDiff l with
      | none => 0
      | some ab => jaccardRat ab.1 ab.2) := by
    cases firstDiff l with
    | none => norm_num
    | some ab => exact jaccardRat_nonneg ab.1 ab.2
  positivity

theorem scoreLoop_ge_leadEq (l : List (String × String)) :
    (leadEqCount l : ℚ) ≤ (scoreLoop l).toRat := by
  rw [scoreLoop_toRat]
  have h : (0 : ℚ) ≤ (match firstDiff l with
      | none => 0
      | some ab => jaccardRat ab.1 ab.2) := by
    cases firstDiff l with
    | none => norm_num
    | some ab => exact jaccardRat_nonneg ab.1 ab.2
  linarith

theorem scoreLoop_le_leadEq_add_one (l : List (String × String)) :
    (scoreLoop l).toRat ≤ (leadEqCount l : ℚ) + 1 := by
  rw [scoreLoop_toRat]
  have h : (match firstDiff l with
      | none => (0 : ℚ)
      | some ab => jaccardRat ab.1 ab.2) ≤ 1 := by
    cases firstDiff l with
    | none => norm_num
    | some ab => exact jaccardRat_le_one ab.1 ab.2
  linarith

theorem candScore_pos (suffix cand : List String) : (candScore suffix cand).Pos :=
  scoreLoop_pos _

theorem candScore_nonneg (suffix cand : List String) :
    0 ≤ (candScore suffix cand).toRat :=
  scoreLoop_nonneg _

/-- The score of the empty-string candidate never exceeds `1`. -/
theorem candScore_empty_le_one (suffix : List String) :
    (candScore suffix (strSplit "")).toRat ≤ 1 := by
  have hsplit : strSplit "" = [""] := by decide
  rw [hsplit]
  unfold candScore
  cases hs : suffix.reverse with
  | nil =>
    simp only [hs, List.zip_nil_left]
    rw [show scoreLoop [] = ⟨0, 1⟩ from rfl, Q.toRat_mk_one]
    norm_num
  | cons a rest =>
    have hz : List.zip (a :: rest) ([""] : List String).reverse = [(a, "")] := by
      simp [List.zip]
    rw [hz]
    by_cases ha : a = ""
    · unfold scoreLoop
      rw [if_pos ha, Q.toRat_add (Q.pos_ofInt 1) (scoreLoop_pos []), Q.toRat_ofInt,
        show scoreLoop [] = ⟨0, 1⟩ from rfl, Q.toRat_mk_one]
      norm_num
    · unfold scoreLoop
      rw [if_neg ha, sim_toRat]
      exact jaccardRat_le_one a ""

/-- Invariant of the best-candidate fold: the accumulator's score stays
positive-denominator, only grows, ends at the maximum of all candidate
scores, and — unless never updated — holds some candidate together with
its own score. -/
theorem bestFold_invariant (suffix : List String) :
    ∀ (l : List String) (acc : Q × Option String), acc.1.Pos →
      (l.foldl (bestStep suffix) acc).1.Pos ∧
      (l.foldl (bestStep suffix) acc = acc ∨
        ∃ m ∈ l, (l.foldl (bestStep suffix) acc).2 = some m ∧
          (l.foldl (bestStep suffix) acc).1 = candScore suffix (strSplit m)) ∧
      acc.1.toRat ≤ (l.foldl (bestStep suffix) acc).1.toRat ∧
      ∀ m ∈ l, (candScore suffix (strSplit m)).toRat ≤
        (l.foldl (bestStep suffix) acc).1.toRat := by
  intro l
  induction l with
  | nil =>
    intro acc hacc
    refine ⟨hacc, Or.inl rfl, le_refl _, ?_⟩
    intro m hm
    exact absurd hm (List.not_mem_nil m)
  | cons m rest ih =>
    intro acc hacc
    simp only [List.foldl_cons]
    by_cases hblt : acc.1.blt (candScore suffix (strSplit m)) = true
    · have hstep : bestStep suffix acc m = (candScore suffix (strSplit m), some m) := by
        unfold bestStep
        simp only [hblt, if_true]
      rw [hstep]
      obtain ⟨rpos, rcase, rle, rall⟩ := ih (candScore suffix (strSplit m), some m)
        (candScore_pos suffix (strSplit m))
      have hlt : acc.1.toRat < (candScore suffix (strSplit m)).toRat :=
        (Q.blt_iff hacc (candScore_pos suffix (strSplit m))).mp hblt
      refine ⟨rpos, ?_, le_trans (le_of_lt hlt) rle, ?_⟩
      · rcases rcase with heq | ⟨m', hm', h2, h1⟩
        · exact Or.inr ⟨m, List.mem_cons_self m rest, by rw [heq], by rw [heq]⟩
        · exact Or.inr ⟨m', List.mem_cons_of_mem m hm', h2, h1⟩
      · intro m' hm'
        rcases List.mem_cons.mp hm' with h | h
        · rw [h]
          exact rle
        · exact rall m' h
    · rw [Bool.not_eq_true] at hblt
      have hstep : bestStep suffix acc m = acc := by
        unfold bestStep
        simp only [hblt, Bool.false_eq_true, if_false]
      rw [hstep]
      obtain ⟨rpos, rcase, rle, rall⟩ := ih acc hacc
      have hge : (candScore suffix (strSplit m)).toRat ≤ acc.1.toRat := by
        have hn := (Q.blt_iff hacc (candScore_pos suffix (strSplit m))).not
        rw [Bool.not_eq_true] at hn
        exact not_lt.mp (hn.mp hblt)
      refine ⟨rpos, ?_, rle, ?_⟩
      · rcases rcase with heq | ⟨m', hm', h2, h1⟩
        · exact Or.inl heq
        · exact Or.inr ⟨m', List.mem_cons_of_mem m hm', h2, h1⟩
      · intro m' hm'
        rcases List.mem_cons.mp hm' with h | h
        · rw [h]
          exact le_trans hge rle
        · exact rall m' h

/-- The best-candidate fold on a non-empty list: the result is positive,
is realised by some candidate together with its own score, and bounds the
score of every candidate. -/
theorem bestFold_spec (suffix : List String) (ms : List String) (h : ms ≠ []) :
    (bestFold suffix ms).1.Pos ∧
    (∃ m ∈ ms, (bestFold suffix ms).2 = some m ∧
      (bestFold suffix ms).1 = candScore suffix (strSplit m)) ∧
    ∀ m ∈ ms, (candScore suffix (strSplit m)).toRat ≤ (bestFold suffix ms).1.toRat := by
  obtain ⟨rpos, rcase, rle, rall⟩ :=
    bestFold_invariant suffix ms (⟨-1, 1⟩, none) (Q.pos_mk_one (-1))
  refine ⟨rpos, ?_, rall⟩
  rcases rcase with heq | hex
  · exfalso
    obtain ⟨m, hm⟩ := List.exists_mem_of_ne_nil ms h
    have h1 := rall m hm
    rw [heq] at h1
    have h3 := candScore_nonneg suffix (strSplit m)
    norm_num [Q.toRat] at h1 h3
    linarith
  · exact hex

/-! ## Lemmas about substring containment -/

theorem strData_append (a b : String) : (a ++ b).data = a.data ++ b.data := by
  obtain ⟨la⟩ := a
  obtain ⟨lb⟩ := b
  rfl

theorem prefixAt_self_append (pat r : List Char) : prefixAt pat (pat ++ r) = true := by
  induction pat with
  | nil => rfl
  | cons c cs ih =>
    rw [List.cons_append]
    show (if c = c then prefixAt cs (cs ++ r) else false) = true
    rw [if_pos rfl]
    exact ih

theorem infixAt_of_prefixAt {pat l : List Char} (h : prefixAt pat l = true) :
    infixAt pat l = true := by
  cases l with
  | nil =>
    cases pat with
    | nil => rfl
    | cons c cs => simp [prefixAt] at h
  | cons c rest =>
    unfold infixAt
    rw [h]
    rfl

theorem infixAt_append_left (l1 : List Char) {pat l2 : List Char}
    (h : infixAt pat l2 = true) : infixAt pat (l1 ++ l2) = true := by
  induction l1 with
  | nil => simpa using h
  | cons c cs ih =>
    rw [List.cons_append]
    unfold infixAt
    rw [ih]
    simp

/-- A path that contains `"myoutput/"` contains the sentinel `"output/"`
as a substring, whatever surrounds it. -/
theorem strContains_myoutput (s1 s2 : String) :
    strContains (s1 ++ "myoutput/" ++ s2) "output/" = true := by
  unfold strContains
  rw [strData_append, strData_append]
  have hmy : ("myoutput/" : String).data = "my".data ++ ("output/" : String).data := rfl
  rw [hmy, List.append_assoc, List.append_assoc]
  exact infixAt_append_left _
    (infixAt_append_left _
      (infixAt_of_prefixAt (prefixAt_self_append _ _)))

/-! ## Lemmas about the search strategies and the resolver -/

theorem strategy1_trace_shape (ex : Exec) (cwd path : String) (roots : List String) :
    (strategy1 ex cwd path roots).2 = [] ∨
      ∃ t, (strategy1 ex cwd path roots).2 = [fdCmd t false roots] := by
  by_cases h : dirname (rstripSep path) ≠ "" ∧ dirname (rstripSep path) ≠ "/"
  · right
    refine ⟨join2 (basename (dirname (rstripSep path))) (basename (rstripSep path)), ?_⟩
    simp only [strategy1, if_pos h]
  · left
    simp only [strategy1, if_neg h]

theorem strategy1_trace_nil (ex : Exec) (cwd path : String) (roots : List String)
    (h : (strategy1 ex cwd path roots).2 = []) :
    (strategy1 ex cwd path roots).1 = none := by
  by_cases hc : dirname (rstripSep path) ≠ "" ∧ dirname (rstripSep path) ≠ "/"
  · simp only [strategy1, if_pos hc] at h
    exact absurd h (List.cons_ne_nil _ _)
  · simp only [strategy1, if_neg hc]

theorem strategy2_trace_shape (ex : Exec) (cwd path : String) (roots : List String) :
    (strategy2 ex cwd path roots).2 = [] ∨
      ∃ t, (strategy2 ex cwd path roots).2 = [fdCmd t true roots] := by
  by_cases h : basename path ≠ ""
  · right
    refine ⟨"^" ++ reEscape (basename path) ++ "$", ?_⟩
    simp only [strategy2, if_pos h]
  · left
    simp only [strategy2, if_neg h]

theorem strategy2_trace_nil (ex : Exec) (cwd path : String) (roots : List String)
    (h : (strategy2 ex cwd path roots).2 = []) :
    (strategy2 ex cwd path roots).1 = none := by
  by_cases hc : basename path ≠ ""
  · simp only [strategy2, if_pos hc] at h
    exact absurd h (List.cons_ne_nil _ _)
  · simp only [strategy2, if_neg hc]

theorem searchStrategies_trace_mem (ex : Exec) (cwd path : String)
    (roots : List String) :
    ∀ c ∈ (searchStrategies ex cwd path roots).2, ∃ t b, c = fdCmd t b roots := by
  intro c hc
  simp only [searchStrategies] at hc
  cases hs : (strategy1 ex cwd path roots).1 with
  | some best =>
    simp only [hs] at hc
    rcases strategy1_trace_shape ex cwd path roots with h | ⟨t, h⟩
    · rw [h] at hc
      exact absurd hc (List.not_mem_nil c)
    · rw [h] at hc
      rcases List.mem_singleton.mp hc with rfl
      exact ⟨t, false, rfl⟩
  | none =>
    simp only [hs] at hc
    rcases List.mem_append.mp hc with h1 | h2
    · rcases strategy1_trace_shape ex cwd path roots with h | ⟨t, h⟩
      · rw [h] at h1
        exact absurd h1 (List.not_mem_nil c)
      · rw [h] at h1
        rcases List.mem_singleton.mp h1 with rfl
        exact ⟨t, false, rfl⟩
    · rcases strategy2_trace_shape ex cwd path roots with h | ⟨t, h⟩
      · rw [h] at h2
        exact absurd h2 (List.not_mem_nil c)
      · rw [h] at h2
        rcases List.mem_singleton.mp h2 with rfl
        exact ⟨t, true, rfl⟩

theorem searchStrategies_trace_len (ex : Exec) (cwd path : String)
    (roots : List String) :
    (searchStrategies ex cwd path roots).2.length ≤ 2 := by
  have h1 : (strategy1 ex cwd path roots).2.length ≤ 1 := by
    rcases strategy1_trace_shape ex cwd path roots with h | ⟨t, h⟩ <;> simp [h]
  have h2 : (strategy2 ex cwd path roots).2.length ≤ 1 := by
    rcases strategy2_trace_shape ex cwd path roots with h | ⟨t, h⟩ <;> simp [h]
  simp only [searchStrategies]
  cases hs : (strategy1 ex cwd path roots).1 with
  | some best =>
    simp only [hs]
    omega
  | none =>
    simp only [hs, List.length_append]
    omega

theorem searchStrategies_trace_nil (ex : Exec) (cwd path : String)
    (roots : List String)
    (h : (searchStrategies ex cwd path roots).2 = []) :
    (searchStrategies ex cwd path roots).1 = none := by
  simp only [searchStrategies] at h ⊢
  cases hs : (strategy1 ex cwd path roots).1 with
  | some best =>
    simp only [hs] at h
    have hnil := strategy1_trace_nil ex cwd path roots h
    rw [hs] at hnil
    exact absurd hnil (Option.some_ne_none best)
  | none =>
    simp only [hs] at h ⊢
    rcases List.append_eq_nil.mp h with ⟨h1, h2⟩
    exact strategy2_trace_nil ex cwd path roots h2

/-- After any call of `find_real_path`, the path is bound in the
returned cache. -/
theorem find_real_path_traced_caches (ex : Exec) (cwd : String) (cache : Cache)
    (path : String) (roots : List String) :
    ∃ v, List.lookup path (find_real_path_traced ex cwd cache path roots).2.1 = some v := by
  unfold find_real_path_traced
  cases hl : List.lookup path cache with
  | some v =>
    exact ⟨v, by simp [hl]⟩
  | none =>
    by_cases hc : strContains path "output/" = false
    · refine ⟨some path, ?_⟩
      simp [hl, hc, List.lookup]
    · refine ⟨(searchStrategies ex cwd path roots).1, ?_⟩
      simp [hl, hc, List.lookup]

/-- A cached path is answered without any invocation of the search
provider. -/
theorem find_real_path_traced_cached (ex : Exec) (cwd : String) (cache : Cache)
    (path : String) (roots : List String) (v : Option String)
    (h : List.lookup path cache = some v) :
    (find_real_path_traced ex cwd cache path roots).1 = v ∧
    (find_real_path_traced ex cwd cache path roots).2.2 = [] := by
  unfold find_real_path_traced
  rw [h]
  exact ⟨rfl, rfl⟩

theorem rewriteRun_length (ex : Exec) (cwd : String) (roots : List String)
    (entries : List Entry) :
    (rewriteRun ex cwd roots entries).length = entries.length := by
  have h : ∀ (l : List Entry) (acc : List Entry × Cache),
      ((l.foldl (runStep ex cwd roots) acc).1).length = acc.1.length + l.length := by
    intro l
    induction l with
    | nil =>
      intro acc
      simp
    | cons e rest ih =>
      intro acc
      simp only [List.foldl_cons]
      rw [ih]
      unfold runStep
      simp only [List.length_append, List.length_cons, List.length_nil, List.length_singleton]
      omega
  have h2 := h entries ([], [])
  unfold rewriteRun
  rw [h2]
  simp

/-! ## Lemmas: a failing search provider is the same as an empty one -/

theorem run_fd_search_exec_zero (ex : Exec) (t : String) (roots : List String) (b : Bool) :
    run_fd_search (fun c => some ((ex c).getD [])) t roots b = run_fd_search ex t roots b := by
  unfold run_fd_search
  cases h : ex (fdCmd t b roots) <;> simp [h]

theorem strategy1_exec_zero (ex : Exec) (cwd path : String) (roots : List String) :
    strategy1 (fun c => some ((ex c).getD [])) cwd path roots = strategy1 ex cwd path roots := by
  unfold strategy1
  simp only [run_fd_search_exec_zero]

theorem strategy2_exec_zero (ex : Exec) (cwd path : String) (roots : List String) :
    strategy2 (fun c => some ((ex c).getD [])) cwd path roots = strategy2 ex cwd path roots := by
  unfold strategy2
  simp only [run_fd_search_exec_zero]

theorem searchStrategies_exec_zero (ex : Exec) (cwd path : String) (roots : List String) :
    searchStrategies (fun c => some ((ex c).getD [])) cwd path roots =
      searchStrategies ex cwd path roots := by
  unfold searchStrategies
  rw [strategy1_exec_zero, strategy2_exec_zero]

theorem find_real_path_traced_exec_zero (ex : Exec) (cwd : String) (cache : Cache)
    (path : String) (roots : List String) :
    find_real_path_traced (fun c => some ((ex c).getD [])) cwd cache path roots =
      find_real_path_traced ex cwd cache path roots := by
  unfold find_real_path_traced
  rw [searchStrategies_exec_zero]

/-! ## Claim theorems -/

/-- C1: the similarity scorer compares the candidate's path segments and
the original path's suffix segments from the rightmost end moving
leftward; every exactly equal pair adds `1.0` and the scan continues; the
first differing pair adds the Jaccard similarity of the two segments'
character sets (intersection size over union size, `0` when the union is
empty) and the scan stops, so at most one fractional term is contributed
per candidate; and the score is always non-negative. -/
theorem claim_C1_scorer (suffix cand : List String) :
    (candScore suffix cand).toRat = specScoreClaim suffix cand ∧
    0 ≤ (candScore suffix cand).toRat := by
  constructor
  · unfold candScore specScoreClaim
    exact scoreLoop_toRat _
  · exact candScore_nonneg suffix cand

/-- C8: a candidate that matches strictly more trailing segments exactly
than another candidate, against the same original path, scores at least
as high. -/
theorem claim_C8_monotone (path A B : String)
    (h : exactTrailing (origSuffixParts path) (strSplit B) <
      exactTrailing (origSuffixParts path) (strSplit A)) :
    (candScore (origSuffixParts path) (strSplit B)).toRat ≤
      (candScore (origSuffixParts path) (strSplit A)).toRat := by
  have ha := scoreLoop_ge_leadEq
    (List.zip (origSuffixParts path).reverse (strSplit A).reverse)
  have hb := scoreLoop_le_leadEq_add_one
    (List.zip (origSuffixParts path).reverse (strSplit B).reverse)
  unfold exactTrailing at h
  unfold candScore
  have hle : (leadEqCount (List.zip (origSuffixParts path).reverse (strSplit B).reverse) : ℚ) + 1 ≤
      (leadEqCount (List.zip (origSuffixParts path).reverse (strSplit A).reverse) : ℚ) := by
    exact_mod_cast h
  linarith

/-- C8 witness: against `"/o/output/build/s/a/f.c"`, the candidate
`"/r2/s/a/f.c"` matches three trailing segments exactly and
`"/r1/q/a/f.c"` only two, so the former scores at least as high. -/
theorem claim_C8_witness :
    (candScore (origSuffixParts "/o/output/build/s/a/f.c") (strSplit "/r1/q/a/f.c")).toRat ≤
      (candScore (origSuffixParts "/o/output/build/s/a/f.c") (strSplit "/r2/s/a/f.c")).toRat :=
  claim_C8_monotone "/o/output/build/s/a/f.c" "/r2/s/a/f.c" "/r1/q/a/f.c" (by decide)

/-- C2: for every non-empty candidate list, the best-scoring candidate is
accepted as the resolved path exactly when its score meets or exceeds the
threshold 1.5: at `≥ 1.5` the first best-scoring candidate's absolute
path is returned, and strictly below 1.5 no match is returned. -/
theorem claim_C2_threshold (ms : List String) (path cwd : String) (h : ms ≠ []) :
    MIN_SCORE_THRESHOLD.toRat = 3 / 2 ∧
    ((3 / 2 : ℚ) ≤ (bestFold (origSuffixParts path) ms).1.toRat →
      ∃ m ∈ ms,
        (bestFold (origSuffixParts path) ms).2 = some m ∧
        (candScore (origSuffixParts path) (strSplit m)).toRat =
          (bestFold (origSuffixParts path) ms).1.toRat ∧
        (∀ m' ∈ ms, (candScore (origSuffixParts path) (strSplit m')).toRat ≤
          (bestFold (origSuffixParts path) ms).1.toRat) ∧
        get_best_match ms path cwd = some (abspath cwd m)) ∧
    ((bestFold (origSuffixParts path) ms).1.toRat < 3 / 2 →
      get_best_match ms path cwd = none) := by
  obtain ⟨hpos, ⟨m, hm, hbm, hbs⟩, hall⟩ := bestFold_spec (origSuffixParts path) ms h
  have hthrpos : MIN_SCORE_THRESHOLD.Pos := by
    show (0 : Int) < 2
    norm_num
  have hthr : MIN_SCORE_THRESHOLD.toRat = 3 / 2 := by
    show ((3 : Int) : ℚ) / ((2 : Int) : ℚ) = 3 / 2
    norm_num
  refine ⟨hthr, ?_, ?_⟩
  · intro hge
    have hm_ne : m ≠ "" := by
      intro he
      rw [he] at hbs
      have h1 := candScore_empty_le_one (origSuffixParts path)
      rw [← hbs] at h1
      linarith
    refine ⟨m, hm, hbm, by rw [hbs], hall, ?_⟩
    have hblt : ¬ ((bestFold (origSuffixParts path) ms).1.blt MIN_SCORE_THRESHOLD = true) := by
      rw [Q.blt_iff hpos hthrpos, hthr]
      exact not_lt.mpr hge
    rw [Bool.not_eq_true] at hblt
    simp only [get_best_match, if_neg h, hblt, Bool.false_eq_true, if_false, hbm]
    rw [if_pos hm_ne]
  · intro hlt
    have hblt : (bestFold (origSuffixParts path) ms).1.blt MIN_SCORE_THRESHOLD = true := by
      rw [Q.blt_iff hpos hthrpos, hthr]
      exact hlt
    simp only [get_best_match, if_neg h, hblt, if_true]

/-- C2 witness: a candidate scoring exactly 1.5 (one exact trailing match
plus a Jaccard similarity of 1/2) is accepted. -/
theorem claim_C2_witness :
    get_best_match ["/x/a/f.c"] "/o/output/build/ab/f.c" "/c" = some "/x/a/f.c" := by
  have h := claim_C2_threshold ["/x/a/f.c"] "/o/output/build/ab/f.c" "/c" (by decide)
  have hbs : (bestFold (origSuffixParts "/o/output/build/ab/f.c") ["/x/a/f.c"]).1 = ⟨3, 2⟩ := by
    decide
  have hge : (3 / 2 : ℚ) ≤ (bestFold (origSuffixParts "/o/output/build/ab/f.c") ["/x/a/f.c"]).1.toRat := by
    rw [hbs]
    show (3 / 2 : ℚ) ≤ ((3 : Int) : ℚ) / ((2 : Int) : ℚ)
    norm_num
  obtain ⟨m, hm, hbm, hsc, hall, hres⟩ := h.2.1 hge
  have hbm2 : (bestFold (origSuffixParts "/o/output/build/ab/f.c") ["/x/a/f.c"]).2 =
      some "/x/a/f.c" := by decide
  rw [hbm2] at hbm
  have hm' : m = "/x/a/f.c" := Option.some_injective _ hbm.symm
  rw [hm'] at hres
  rw [hres]
  decide

/-- C10: the staleness test is substring containment, not whole-segment
equality — an uncached path is passed through unchanged, with no search,
exactly when the string `"output/"` does not occur anywhere in it; a
sentinel inside a longer segment such as `"myoutput/"` still makes the
test fire; and a path without the longer sentinel `"output/build/"` is
scored against only its last 4 segments. -/
theorem claim_C10_sentinels :
    (∀ (ex : Exec) (cwd : String) (cache : Cache) (path : String) (roots : List String),
      List.lookup path cache = none →
      (strContains path "output/" = false ↔
        ((find_real_path_traced ex cwd cache path roots).1 = some path ∧
         (find_real_path_traced ex cwd cache path roots).2.2 = []))) ∧
    (∀ s1 s2 : String, strContains (s1 ++ "myoutput/" ++ s2) "output/" = true) ∧
    (∀ p : String, strContains p "output/build/" = false →
      origSuffixParts p = lastN 4 (strSplit p)) := by
  refine ⟨?_, strContains_myoutput, ?_⟩
  · intro ex cwd cache path roots hl
    constructor
    · intro hc
      unfold find_real_path_traced
      rw [hl]
      simp only [if_pos hc]
      exact ⟨by trivial, by trivial⟩
    · rintro ⟨h1, h2⟩
      by_contra hc
      unfold find_real_path_traced at h1 h2
      rw [hl] at h1 h2
      rw [if_neg hc] at h1 h2
      simp only at h1 h2
      have hres := searchStrategies_trace_nil ex cwd path roots h2
      rw [hres] at h1
      exact Option.noConfusion h1
  · intro p hp
    unfold origSuffixParts
    rw [if_neg]
    intro hcontra
    rw [hp] at hcontra
    exact Bool.false_ne_true hcontra

/-- C10 witness: the sentinel-free path `"/a/b/f.c"` passes through with
no search; `"/r/myoutput/f.c"` contains the sentinel; and a path without
`"output/build/"` is scored against its last 4 segments. -/
theorem claim_C10_witness :
    (find_real_path_traced (fun _ => some []) "/c" [] "/a/b/f.c" ["/r"]).1 = some "/a/b/f.c" ∧
    strContains ("/r/" ++ "myoutput/" ++ "f.c") "output/" = true ∧
    origSuffixParts "/a/b/f.c" = lastN 4 (strSplit "/a/b/f.c") := by
  refine ⟨?_, claim_C10_sentinels.2.1 "/r/" "f.c",
    claim_C10_sentinels.2.2 "/a/b/f.c" (by decide)⟩
  exact ((claim_C10_sentinels.1 (fun _ => some []) "/c" [] "/a/b/f.c" ["/r"]
    (by decide)).mp (by decide)).1

/-- C9: a failure of the external search (missing `fd`, or a non-zero
exit of a single invocation) is treated as zero candidates for that call
and never propagated: the resolver behaves exactly as with a provider
returning no lines, and a failed strategy-1 invocation falls through to
strategy 2. -/
theorem claim_C9_failure :
    (∀ (ex : Exec) (t : String) (roots : List String) (b : Bool),
      ex (fdCmd t b roots) = none → run_fd_search ex t roots b = []) ∧
    (∀ (ex : Exec) (cwd : String) (cache : Cache) (path : String) (roots : List String),
      find_real_path_traced (fun c => some ((ex c).getD [])) cwd cache path roots =
        find_real_path_traced ex cwd cache path roots) ∧
    (∀ (ex : Exec) (cwd path : String) (roots : List String),
      ex (fdCmd (join2 (basename (dirname (rstripSep path))) (basename (rstripSep path)))
          false roots) = none →
      (searchStrategies ex cwd path roots).1 = (strategy2 ex cwd path roots).1) := by
  refine ⟨?_, find_real_path_traced_exec_zero, ?_⟩
  · intro ex t roots b hex
    unfold run_fd_search
    rw [hex]
  · intro ex cwd path roots hex
    have hs1 : (strategy1 ex cwd path roots).1 = none := by
      by_cases hc : dirname (rstripSep path) ≠ "" ∧ dirname (rstripSep path) ≠ "/"
      · have hrun : run_fd_search ex
            (join2 (basename (dirname (rstripSep path))) (basename (rstripSep path)))
            roots false = [] := by
          unfold run_fd_search
          rw [hex]
        simp only [strategy1, if_pos hc, hrun, List.filter_nil]
        rfl
      · simp only [strategy1, if_neg hc]
    simp only [searchStrategies, hs1]

/-- C9 witness: with a provider that always fails, the search returns no
candidates and the strategies fall through. -/
theorem claim_C9_witness :
    run_fd_search (fun _ => none) "a/f.c" ["/r"] false = [] ∧
    (searchStrategies (fun _ => none) "/c" "/x/output/a/f.c" ["/r"]).1 =
      (strategy2 (fun _ => none) "/c" "/x/output/a/f.c" ["/r"]).1 := by
  constructor
  · exact claim_C9_failure.1 (fun _ => none) "a/f.c" ["/r"] false rfl
  · exact claim_C9_failure.2.2 (fun _ => none) "/c" "/x/output/a/f.c" ["/r"] rfl

/-- C4 counterexample: resolving the single stale path `"output/x/y.c"`
once, with a provider that succeeds with no candidates, invokes the
provider twice (once per strategy) — not at most once as the claim
states. -/
theorem claim_C4_counterexample :
    ((find_real_path_traced (fun _ => some []) "/c" [] "output/x/y.c" ["/r"]).2.2).length = 2 ∧
    ¬ ((find_real_path_traced (fun _ => some []) "/c" [] "output/x/y.c" ["/r"]).2.2).length ≤ 1 := by
  decide

/-- C4 amended: per resolution the search provider is invoked at most
twice (at most once per strategy); a cached path is answered with no
invocation; and after a path has been resolved once, resolving it again
with the resulting cache performs no search at all. -/
theorem claim_C4_amended (ex : Exec) (cwd : String) (cache : Cache)
    (path : String) (roots : List String) :
    ((find_real_path_traced ex cwd cache path roots).2.2).length ≤ 2 ∧
    (∀ v, List.lookup path cache = some v →
      (find_real_path_traced ex cwd cache path roots).2.2 = []) ∧
    (find_real_path_traced ex cwd
      (find_real_path_traced ex cwd cache path roots).2.1 path roots).2.2 = [] := by
  refine ⟨?_, ?_, ?_⟩
  · unfold find_real_path_traced
    cases hl : List.lookup path cache with
    | some v => simp
    | none =>
      by_cases hc : strContains path "output/" = false
      · simp [hc]
      · simp only [if_neg hc]
        exact searchStrategies_trace_len ex cwd path roots
  · intro v hv
    exact (find_real_path_traced_cached ex cwd cache path roots v hv).2
  · obtain ⟨v, hv⟩ := find_real_path_traced_caches ex cwd cache path roots
    exact (find_real_path_traced_cached ex cwd _ path roots v hv).2

/-- C4 witness: a cached path is answered with no invocation, and a fresh
resolution stays within two invocations. -/
theorem claim_C4_witness :
    (find_real_path_traced (fun _ => some []) "/c" [("p", some "q")] "p" ["/r"]).2.2 = [] ∧
    ((find_real_path_traced (fun _ => some []) "/c" [] "output/x2/y.c" ["/r"]).2.2).length ≤ 2 := by
  constructor
  · exact (claim_C4_amended (fun _ => some []) "/c" [("p", some "q")] "p" ["/r"]).2.1
      (some "q") (by decide)
  · exact (claim_C4_amended (fun _ => some []) "/c" [] "output/x2/y.c" ["/r"]).1

/-- C3 counterexample: with roots `["/r1", "/r2"]`, the first root alone
yields the confident match `"/r1/q/a/f.c"`, yet the resolver returns the
second root's higher-scoring candidate `"/r2/s/a/f.c"` — the first root
does not win, because both roots go into one merged, jointly ranked
candidate list, contradicting the claimed per-root search. -/
theorem claim_C3_counterexample :
    (find_real_path exC3 "/c" [] pathC3 ["/r1", "/r2"]).1 = some "/r2/s/a/f.c" ∧
    (find_real_path exC3 "/c" [] pathC3 ["/r1"]).1 = some "/r1/q/a/f.c" ∧
    find_real_path_per_root exC3 "/c" pathC3 ["/r1", "/r2"] = some "/r1/q/a/f.c" ∧
    (find_real_path exC3 "/c" [] pathC3 ["/r1", "/r2"]).1 ≠
      find_real_path_per_root exC3 "/c" pathC3 ["/r1", "/r2"] := by
  refine ⟨by decide, by decide, by decide, by decide⟩

/-- C3 amended: each resolution issues at most two provider invocations
(one per strategy), and every invocation's command carries the whole
ordered list of source roots at once — the candidates of all roots come
back from that single invocation and are ranked together, so the overall
best score wins regardless of which root produced it. -/
theorem claim_C3_amended (ex : Exec) (cwd : String) (cache : Cache)
    (path : String) (roots : List String) :
    (∀ c ∈ (find_real_path_traced ex cwd cache path roots).2.2,
      ∃ pre post, c = pre ++ roots ++ post) ∧
    ((find_real_path_traced ex cwd cache path roots).2.2).length ≤ 2 := by
  constructor
  · intro c hc
    unfold find_real_path_traced at hc
    cases hl : List.lookup path cache with
    | some v =>
      rw [hl] at hc
      exact absurd hc (List.not_mem_nil c)
    | none =>
      rw [hl] at hc
      by_cases hcon : strContains path "output/" = false
      · rw [if_pos hcon] at hc
        exact absurd hc (List.not_mem_nil c)
      · rw [if_neg hcon] at hc
        simp only at hc
        obtain ⟨t, b, rfl⟩ := searchStrategies_trace_mem ex cwd path roots c hc
        exact ⟨["fd", "-HI"] ++ (if b then ["--regex", t] else [t]),
          EXCLUDED_DIRS.foldl (fun acc e => acc ++ ["--exclude", e]) [], rfl⟩
  · unfold find_real_path_traced
    cases hl : List.lookup path cache with
    | some v => simp
    | none =>
      by_cases hcon : strContains path "output/" = false
      · simp [hcon]
      · simp only [if_neg hcon]
        exact searchStrategies_trace_len ex cwd path roots

/-- C3 witness: in the C3 scenario the single strategy-1 command carries
both roots. -/
theorem claim_C3_witness :
    ∃ pre post, fdCmd "a/f.c" false ["/r1", "/r2"] = pre ++ ["/r1", "/r2"] ++ post :=
  (claim_C3_amended exC3 "/c" [] pathC3 ["/r1", "/r2"]).1
    (fdCmd "a/f.c" false ["/r1", "/r2"]) (by decide)

/-- C5 counterexample: the first run on the C5 entry resolves its anchor
to `"/src/pk/a/f.c"` but keeps the argument token `"a/./g.c"` verbatim
(its file is not found); the second run, whose directory is no longer
stale, resolves the argument by pass-through and rewrites it to
`"a/g.c"` — so the second run's output differs from its input and the
rewrite is not idempotent. -/
theorem claim_C5_counterexample :
    rewriteRun exC5 "/c" ["/src"] (rewriteRun exC5 "/c" ["/src"] [eC5]) ≠
      rewriteRun exC5 "/c" ["/src"] [eC5] := by
  decide

/-- C5 amended: resolving an uncached path without the `"output/"`
sentinel returns it unchanged, and an entry whose anchor cannot be
resolved passes through a first and a second run unchanged; full
idempotence of the rewrite fails in general (a second run may rewrite
argument tokens the first run kept verbatim). -/
theorem claim_C5_amended :
    (∀ (ex : Exec) (cwd : String) (cache : Cache) (path : String) (roots : List String),
      List.lookup path cache = none →
      strContains path "output/" = false →
      (find_real_path ex cwd cache path roots).1 = some path) ∧
    (∀ (ex : Exec) (cwd : String) (roots : List String) (e : Entry),
      (find_real_path ex cwd [] (anchorPath e) roots).1 = none →
      rewriteRun ex cwd roots [e] = [e] ∧
      rewriteRun ex cwd roots (rewriteRun ex cwd roots [e]) = [e]) := by
  constructor
  · intro ex cwd cache path roots hl hc
    unfold find_real_path find_real_path_traced
    rw [hl]
    simp only [if_pos hc]
  · intro ex cwd roots e hnone
    have hpe : (process_entry ex cwd roots [] e).1 = e := by
      unfold process_entry
      by_cases hd : e.directory = "" ∨ e.file = ""
      · rw [if_pos hd]
      · rw [if_neg hd]
        simp only [hnone]
    have hone : rewriteRun ex cwd roots [e] = [e] := by
      unfold rewriteRun
      simp only [List.foldl_cons, List.foldl_nil]
      unfold runStep
      simp only [hpe]
      rfl
    refine ⟨hone, ?_⟩
    rw [hone]
    exact hone

/-- C5 witness: a sentinel-free path passes through, and an entry whose
anchor is unresolved is unchanged by two consecutive runs. -/
theorem claim_C5_witness :
    (find_real_path (fun _ => some []) "/c" [] "/a/b2/f.c" ["/r"]).1 = some "/a/b2/f.c" ∧
    rewriteRun (fun _ => some []) "/c" ["/r"]
      [(⟨"/proj", "output/g.c", []⟩ : Entry)] = [(⟨"/proj", "output/g.c", []⟩ : Entry)] := by
  constructor
  · exact claim_C5_amended.1 (fun _ => some []) "/c" [] "/a/b2/f.c" ["/r"]
      (by decide) (by decide)
  · exact (claim_C5_amended.2 (fun _ => some []) "/c" ["/r"]
      ⟨"/proj", "output/g.c", []⟩ (by decide)).1

/-- C6: an entry whose anchor file resolves to nothing is emitted with
its directory, file and arguments identical to the input, and the
rewriter never drops an entry — the output has exactly the input's
length. -/
theorem claim_C6_passthrough :
    (∀ (ex : Exec) (cwd : String) (roots : List String) (cache : Cache) (e : Entry),
      (find_real_path ex cwd cache (anchorPath e) roots).1 = none →
      (process_entry ex cwd roots cache e).1 = e) ∧
    (∀ (ex : Exec) (cwd : String) (roots : List String) (entries : List Entry),
      (rewriteRun ex cwd roots entries).length = entries.length) := by
  constructor
  · intro ex cwd roots cache e hnone
    unfold process_entry
    by_cases hd : e.directory = "" ∨ e.file = ""
    · rw [if_pos hd]
    · rw [if_neg hd]
      simp only [hnone]
  · intro ex cwd roots entries
    exact rewriteRun_length ex cwd roots entries

/-- C6 witness: with a provider that finds no candidates, the entry of
the C6 scenario is emitted unchanged. -/
theorem claim_C6_witness :
    (process_entry (fun _ => some []) "/c" ["/r"] [] eC6).1 = eC6 :=
  claim_C6_passthrough.1 (fun _ => some []) "/c" ["/r"] [] eC6 (by decide)

/-- C7: for a resolved entry the new directory is computed by taking the
relative path from the original directory to the original absolute file,
counting its segment depth `k`, and ascending `k` levels from the
resolved file; the new file is the resolved file relative to that new
directory; and when the relative-path computation fails, the new
directory is the resolved file's parent and the new file its basename. -/
theorem claim_C7_directory (ex : Exec) (cwd : String) (roots : List String)
    (cache : Cache) (e : Entry) (found : String)
    (hd : e.directory ≠ "") (hf : e.file ≠ "")
    (hfound : (find_real_path ex cwd cache (anchorPath e) roots).1 = some found) :
    (∀ rel newFile, relpath cwd (anchorPath e) e.directory = some rel →
      relpath cwd found
        (abspath cwd (joinMany found (List.replicate (strSplit rel).length ".."))) =
        some newFile →
      (process_entry ex cwd roots cache e).1.directory =
        abspath cwd (joinMany found (List.replicate (strSplit rel).length "..")) ∧
      (process_entry ex cwd roots cache e).1.file = newFile) ∧
    (relpath cwd (anchorPath e) e.directory = none →
      (process_entry ex cwd roots cache e).1.directory = dirname found ∧
      (process_entry ex cwd roots cache e).1.file = basename found) := by
  have hnd : ¬ (e.directory = "" ∨ e.file = "") := by
    rintro (h | h)
    · exact hd h
    · exact hf h
  constructor
  · intro rel newFile hrel hrel2
    unfold process_entry
    rw [if_neg hnd]
    simp only [hfound, hrel, hrel2]
    exact ⟨by trivial, by trivial⟩
  · intro hrel
    unfold process_entry
    rw [if_neg hnd]
    simp only [hfound, hrel]
    exact ⟨by trivial, by trivial⟩

/-- C7 witness: in the C7 scenario the anchor resolves to
`"/src/pk/a/f.c"`, the relative depth is 2, and the entry is rewritten to
directory `"/src/pk"` and file `"a/f.c"`. -/
theorem claim_C7_witness :
    (process_entry exC7 "/c" ["/src"] [] eC7).1.directory = "/src/pk" ∧
    (process_entry exC7 "/c" ["/src"] [] eC7).1.file = "a/f.c" := by
  have h := claim_C7_directory exC7 "/c" ["/src"] [] eC7 "/src/pk/a/f.c"
    (by decide) (by decide) (by decide)
  have h2 := h.1 "a/f.c" "a/f.c" (by decide) (by decide)
  refine ⟨?_, h2.2⟩
  rw [h2.1]
  decide
